import Mathlib

/-!
Shallow embedding of the `patterns` repository core.

The repository has two historical variants of `generate_pattern`:
a library version (`src/lib.rs`) that uses a fixed 128-slot lookup table,
a `u8` rank counter, and calls `exit(1)` on a byte outside the table, and
a binary version (`src/main.rs`) that keeps a stack of seen bytes and uses
a linear search.  Both are embedded here over `List Nat` byte strings, with
all `u8` arithmetic made explicit as `% 256` (and `u32` as `% 4294967296`
in the frequency counter).
-/

/-- Outcome of the library `generate_pattern`: either a completed pattern,
or a process exit with the given code (the `println!` plus `exit(1)` branch
of `src/lib.rs`).  The source has no error type, so the only non-success
outcome is the process exit. -/
inductive GenOutcome where
  | ok : List Nat → GenOutcome
  | processExit : Nat → GenOutcome
deriving DecidableEq

/-- The 128-slot seen-table `[0u8; 128]` of `src/lib.rs`, modelled as a
function from byte value to stored mark, zero-initialised. -/
def emptyTable : Nat → Nat := fun _ => 0

/-- Bounds-checked lookup `stack.get_mut(byte as usize)` on the 128-slot
table: `some` exactly when the byte is an index of the table. -/
def tableGet (t : Nat → Nat) (b : Nat) : Option Nat :=
  if b < 128 then some (t b) else none

/-- Point update of the table, modelling `*needle = total`. -/
def tableSet (t : Nat → Nat) (b v : Nat) : Nat → Nat :=
  fun x => if x = b then v else t x

/-- The loop of `src/lib.rs::generate_pattern`.  For each byte: look the
byte up in the table; a missing slot is the `exit(1)` branch; a stored `0`
means unseen, so the `u8` counter `total` is bumped (wrapping, hence
`% 256`) and stored; the pushed value is the stored mark minus one in
wrapping `u8` arithmetic (`+ 255 mod 256`). -/
def patternLoop (t : Nat → Nat) (total : Nat) : List Nat → GenOutcome
  | [] => GenOutcome.ok []
  | b :: rest =>
    match tableGet t b with
    | none => GenOutcome.processExit 1
    | some needle =>
      if needle = 0 then
        match patternLoop (tableSet t b ((total + 1) % 256)) ((total + 1) % 256) rest with
        | GenOutcome.ok p => GenOutcome.ok ((((total + 1) % 256 + 255) % 256) :: p)
        | e => e
      else
        match patternLoop t total rest with
        | GenOutcome.ok p => GenOutcome.ok (((needle + 255) % 256) :: p)
        | e => e

/-- The library `generate_pattern` of `src/lib.rs`, started on the
zero-initialised 128-slot table with `total = 0`. -/
def generate_pattern (l : List Nat) : GenOutcome := patternLoop emptyTable 0 l

/-- The same loop with unbounded (mathematical) arithmetic in place of the
wrapping `u8` operations: the reference against which absence of
wraparound is stated. -/
def patternLoopNat (t : Nat → Nat) (total : Nat) : List Nat → GenOutcome
  | [] => GenOutcome.ok []
  | b :: rest =>
    match tableGet t b with
    | none => GenOutcome.processExit 1
    | some needle =>
      if needle = 0 then
        match patternLoopNat (tableSet t b (total + 1)) (total + 1) rest with
        | GenOutcome.ok p => GenOutcome.ok (total :: p)
        | e => e
      else
        match patternLoopNat t total rest with
        | GenOutcome.ok p => GenOutcome.ok ((needle - 1) :: p)
        | e => e

/-- The library loop with its `u8` arithmetic replaced by unbounded `Nat`
arithmetic. -/
def generate_pattern_ideal (l : List Nat) : GenOutcome := patternLoopNat emptyTable 0 l

/-- The linear search `stack.iter().position(|&elem| elem == byte)` of
`src/main.rs`. -/
def position (b : Nat) : List Nat → Option Nat
  | [] => none
  | a :: s => if a = b then some 0 else (position b s).map (· + 1)

/-- The loop of `src/main.rs::generate_pattern`: a found byte pushes its
stack index cast to `u8` (`% 256`); a new byte is pushed onto the stack and
the new length cast to `u8` minus one (wrapping) is pushed onto the
pattern. -/
def patternStack (stack : List Nat) : List Nat → List Nat
  | [] => []
  | b :: rest =>
    match position b stack with
    | some needle => (needle % 256) :: patternStack stack rest
    | none => (((stack.length + 1) % 256 + 255) % 256) :: patternStack (stack ++ [b]) rest

/-- The binary `generate_pattern` of `src/main.rs`, started on the empty
stack.  It is total: no byte is ever rejected. -/
def generate_pattern_main (l : List Nat) : List Nat := patternStack [] l

/-- Per-key trace of building the `FnvHashMap` frequency table of
`src/lib.rs::count_frequency`: the number of times `p` was inserted, with
the `u32` increment `*entry += 1` made explicit as `% 4294967296`. -/
def tally (ps : List (List Nat)) (p : List Nat) : Nat :=
  ps.foldl (fun c q => if q = p then (c + 1) % 4294967296 else c) 0

/-- The `count_frequency` of `src/lib.rs`: build the frequency table (one
entry per distinct pattern, its value the wrapped occurrence count), keep
entries with value `> 1`, and sum them in `u32` arithmetic. -/
def count_frequency (ps : List (List Nat)) : Nat :=
  ((ps.dedup.map (tally ps)).filter (fun v => decide (1 < v))).foldl
    (fun acc v => (acc + v) % 4294967296) 0

/-- Ordered list of distinct symbols by first appearance, continuing from
an already-seen list `s`. -/
def firstSeenFrom (s : List Nat) : List Nat → List Nat
  | [] => s
  | b :: rest => if b ∈ s then firstSeenFrom s rest else firstSeenFrom (s ++ [b]) rest

/-- Ordered list of the distinct symbols of `l` by first appearance. -/
def firstSeen (l : List Nat) : List Nat := firstSeenFrom [] l

/-- Index of the first occurrence of `b` in a list (the 0-indexed rank of
first appearance when applied to `firstSeen`). -/
def idxOf (b : Nat) : List Nat → Nat
  | [] => 0
  | a :: s => if a = b then 0 else idxOf b s + 1

/-- The lookup table that corresponds to a seen-stack `s`: a seen byte
stores its stack index plus one, an unseen byte stores the sentinel `0`. -/
def tableOf (s : List Nat) : Nat → Nat :=
  fun b => if b ∈ s then idxOf b s + 1 else 0

/-- Occurrence count of the pattern `p` in a batch, by structural
equality, in unbounded arithmetic. -/
def occCount (p : List Nat) : List (List Nat) → Nat
  | [] => 0
  | q :: rest => (if q = p then 1 else 0) + occCount p rest

/-- Modelled from the spec (section 4.2): the sum, over all distinct
patterns whose occurrence count in the batch is at least 2, of their
occurrence counts, in unbounded arithmetic.  This is the specification
side of the `count_frequency` contract. -/
def recurringTotal (ps : List (List Nat)) : Nat :=
  ((ps.dedup.map (fun p => occCount p ps)).filter (fun v => decide (2 ≤ v))).sum

/-- Appending to the seen list only ever extends it on the right. -/
theorem firstSeenFrom_append (l : List Nat) : ∀ s, ∃ t, firstSeenFrom s l = s ++ t := by
  induction l with
  | nil => intro s; exact ⟨[], by simp [firstSeenFrom]⟩
  | cons b rest ih =>
    intro s
    by_cases hb : b ∈ s
    · obtain ⟨t, ht⟩ := ih s
      exact ⟨t, by simp [firstSeenFrom, hb, ht]⟩
    · obtain ⟨t, ht⟩ := ih (s ++ [b])
      exact ⟨b :: t, by simp [firstSeenFrom, hb, ht]⟩

/-- The first-occurrence index of a member of the left part of an append is
computed in the left part. -/
theorem idxOf_append_left {x : Nat} {s : List Nat} (t : List Nat) (hx : x ∈ s) :
    idxOf x (s ++ t) = idxOf x s := by
  induction s with
  | nil => cases hx
  | cons a s ih =>
    by_cases hax : a = x
    · simp [idxOf, hax]
    · have hxs : x ∈ s := by
        rcases List.mem_cons.mp hx with h | h
        · exact absurd h.symm hax
        · exact h
      simp [idxOf, hax, ih hxs]

/-- The first-occurrence index of a non-member of the left part of an
append skips the whole left part. -/
theorem idxOf_append_right {x : Nat} {s : List Nat} (t : List Nat) (hx : x ∉ s) :
    idxOf x (s ++ t) = s.length + idxOf x t := by
  induction s with
  | nil => simp [idxOf]
  | cons a s ih =>
    have hax : ¬ a = x := fun h => hx (h ▸ List.mem_cons_self a s)
    have hxs : x ∉ s := fun h => hx (List.mem_cons_of_mem a h)
    simp [idxOf, hax, ih hxs]
    omega

/-- The first-occurrence index of a member is a valid index. -/
theorem idxOf_lt_length {x : Nat} {s : List Nat} (hx : x ∈ s) : idxOf x s < s.length := by
  induction s with
  | nil => cases hx
  | cons a s ih =>
    by_cases hax : a = x
    · simp [idxOf, hax]
    · have hxs : x ∈ s := by
        rcases List.mem_cons.mp hx with h | h
        · exact absurd h.symm hax
        · exact h
      have := ih hxs
      simp [idxOf, hax]
      omega

/-- A duplicate-free list of naturals below `n` has at most `n` elements. -/
theorem nodup_length_le {s : List Nat} {n : Nat} (hd : s.Nodup) (hb : ∀ x ∈ s, x < n) :
    s.length ≤ n := by
  have h1 : s.toFinset.card = s.length := List.toFinset_card_of_nodup hd
  have h2 : s.toFinset ⊆ Finset.range n := by
    intro x hx
    simp only [List.mem_toFinset] at hx
    exact Finset.mem_range.mpr (hb x hx)
  have h3 := Finset.card_le_card h2
  rw [h1, Finset.card_range] at h3
  exact h3

/-- A duplicate-free list extended by a fresh element stays duplicate-free. -/
theorem nodup_append_singleton {s : List Nat} {b : Nat} (hs : s.Nodup) (hb : b ∉ s) :
    (s ++ [b]).Nodup := by
  rw [List.nodup_append]
  exact ⟨hs, List.nodup_singleton b, fun x hx hxb => hb (List.mem_singleton.mp hxb ▸ hx)⟩

/-- The linear search finds nothing exactly on non-members. -/
theorem position_of_not_mem {x : Nat} {s : List Nat} (hx : x ∉ s) : position x s = none := by
  induction s with
  | nil => rfl
  | cons a s ih =>
    have hax : ¬ a = x := fun h => hx (h ▸ List.mem_cons_self a s)
    have hxs : x ∉ s := fun h => hx (List.mem_cons_of_mem a h)
    simp [position, hax, ih hxs]

/-- On members, the linear search returns the first-occurrence index. -/
theorem position_of_mem {x : Nat} {s : List Nat} (hx : x ∈ s) :
    position x s = some (idxOf x s) := by
  induction s with
  | nil => cases hx
  | cons a s ih =>
    by_cases hax : a = x
    · simp [position, idxOf, hax]
    · have hxs : x ∈ s := by
        rcases List.mem_cons.mp hx with h | h
        · exact absurd h.symm hax
        · exact h
      simp [position, idxOf, hax, ih hxs]

/-- Every element of the accumulated seen list comes from the seed or from
the scanned list. -/
theorem mem_of_mem_firstSeenFrom {x : Nat} : ∀ {l s : List Nat},
    x ∈ firstSeenFrom s l → x ∈ s ∨ x ∈ l := by
  intro l
  induction l with
  | nil =>
    intro s h
    exact Or.inl (by simpa [firstSeenFrom] using h)
  | cons b rest ih =>
    intro s h
    by_cases hb : b ∈ s
    · rcases ih (by simpa [firstSeenFrom, hb] using h) with h1 | h1
      · exact Or.inl h1
      · exact Or.inr (List.mem_cons_of_mem b h1)
    · rcases ih (by simpa [firstSeenFrom, hb] using h) with h1 | h1
      · rcases List.mem_append.mp h1 with h2 | h2
        · exact Or.inl h2
        · have : x = b := by simpa using h2
          exact Or.inr (this ▸ List.mem_cons_self b rest)
      · exact Or.inr (List.mem_cons_of_mem b h1)

/-- Every element of the first-seen list of `l` occurs in `l`. -/
theorem mem_of_mem_firstSeen {x : Nat} {l : List Nat} (h : x ∈ firstSeen l) : x ∈ l := by
  rcases mem_of_mem_firstSeenFrom h with h1 | h1
  · cases h1
  · exact h1

/-- The accumulated seen list is duplicate-free when the seed is. -/
theorem firstSeenFrom_nodup {l : List Nat} : ∀ {s : List Nat}, s.Nodup →
    (firstSeenFrom s l).Nodup := by
  induction l with
  | nil => intro s hs; simpa [firstSeenFrom] using hs
  | cons b rest ih =>
    intro s hs
    by_cases hb : b ∈ s
    · simpa [firstSeenFrom, hb] using ih hs
    · simpa [firstSeenFrom, hb] using ih (nodup_append_singleton hs hb)

/-- The first-seen list of a valid line has at most 128 entries. -/
theorem firstSeen_length_le {l : List Nat} (h : ∀ b ∈ l, b < 128) :
    (firstSeen l).length ≤ 128 :=
  nodup_length_le (firstSeenFrom_nodup List.nodup_nil)
    (fun x hx => h x (mem_of_mem_firstSeen hx))

/-- In a duplicate-free list, the first-occurrence index of the element at
position `i` is `i` itself. -/
theorem idxOf_get {s : List Nat} (hs : s.Nodup) :
    ∀ i (h : i < s.length), idxOf (s.get ⟨i, h⟩) s = i := by
  induction s with
  | nil =>
    intro i h
    simp at h
  | cons a s ih =>
    intro i h
    cases i with
    | zero => simp [idxOf, List.get]
    | succ j =>
      have hj : j < s.length := by simpa using h
      have hget : (a :: s).get ⟨j + 1, h⟩ = s.get ⟨j, hj⟩ := rfl
      have hmem : s.get ⟨j, hj⟩ ∈ s := s.get_mem j hj
      have hne : ¬ a = s.get ⟨j, hj⟩ := by
        intro hc
        exact (List.nodup_cons.mp hs).1 (hc ▸ hmem)
      rw [hget]
      simp only [idxOf]
      rw [if_neg hne, ih (List.nodup_cons.mp hs).2 j hj]

/-- Updating the table of a seen-stack `s` at a fresh byte with the new
mark gives the table of `s ++ [b]`. -/
theorem tableSet_tableOf {s : List Nat} {b : Nat} (hb : b ∉ s) :
    tableSet (tableOf s) b (s.length + 1) = tableOf (s ++ [b]) := by
  funext x
  by_cases hxb : x = b
  · subst hxb
    have h1 : x ∈ s ++ [x] := by simp
    simp only [tableSet, tableOf, if_pos rfl, if_pos h1]
    rw [idxOf_append_right [x] hb]
    simp [idxOf]
  · have hmm : (x ∈ s ++ [b]) ↔ x ∈ s := by simp [hxb]
    by_cases hxs : x ∈ s
    · simp only [tableSet, tableOf, if_neg hxb, if_pos hxs, if_pos (hmm.mpr hxs)]
      rw [idxOf_append_left [b] hxs]
    · simp only [tableSet, tableOf, if_neg hxb, if_neg hxs, if_neg (fun h => hxs (hmm.mp h))]

/-- Master invariant for the library loop: started from the table and
counter corresponding to a duplicate-free seen-stack `s` of valid bytes,
on a valid input both the wrapping and the unbounded loop succeed and
produce the first-appearance ranks relative to `s`. -/
theorem patternLoop_spec {l : List Nat} : ∀ {s : List Nat}, s.Nodup →
    (∀ x ∈ s, x < 128) → (∀ b ∈ l, b < 128) →
    patternLoop (tableOf s) s.length l
        = GenOutcome.ok (l.map (fun b => idxOf b (firstSeenFrom s l))) ∧
    patternLoopNat (tableOf s) s.length l
        = GenOutcome.ok (l.map (fun b => idxOf b (firstSeenFrom s l))) := by
  induction l with
  | nil =>
    intro s _ _ _
    exact ⟨rfl, rfl⟩
  | cons b rest ih =>
    intro s hnd hsb hlb
    have hb : b < 128 := hlb b (List.mem_cons_self b rest)
    have hslen : s.length ≤ 128 := nodup_length_le hnd hsb
    have hrest : ∀ x ∈ rest, x < 128 := fun x hx => hlb x (List.mem_cons_of_mem b hx)
    by_cases hmem : b ∈ s
    · have htg : tableGet (tableOf s) b = some (idxOf b s + 1) := by
        simp [tableGet, tableOf, hb, hmem]
      have hidx : idxOf b s < 128 := lt_of_lt_of_le (idxOf_lt_length hmem) hslen
      have hfs : firstSeenFrom s (b :: rest) = firstSeenFrom s rest := by
        simp [firstSeenFrom, hmem]
      obtain ⟨t, ht⟩ := firstSeenFrom_append rest s
      have hhead : idxOf b (firstSeenFrom s rest) = idxOf b s := by
        rw [ht, idxOf_append_left t hmem]
      obtain ⟨ih1, ih2⟩ := ih hnd hsb hrest
      constructor
      · simp only [patternLoop, htg]
        rw [if_neg (Nat.succ_ne_zero _), ih1]
        simp only [hfs, List.map_cons, hhead]
        congr 2
        omega
      · simp only [patternLoopNat, htg]
        rw [if_neg (Nat.succ_ne_zero _), ih2]
        simp only [hfs, List.map_cons, hhead]
        congr 2
    · have htg : tableGet (tableOf s) b = some 0 := by
        simp [tableGet, tableOf, hb, hmem]
      have hmod : (s.length + 1) % 256 = s.length + 1 := Nat.mod_eq_of_lt (by omega)
      have htbl := tableSet_tableOf (s := s) (b := b) hmem
      have hnd2 : (s ++ [b]).Nodup := nodup_append_singleton hnd hmem
      have hsb2 : ∀ x ∈ s ++ [b], x < 128 := by
        intro x hx
        rcases List.mem_append.mp hx with h | h
        · exact hsb x h
        · have hxb : x = b := by simpa using h
          omega
      have hlen2 : (s ++ [b]).length = s.length + 1 := by simp
      have hfs : firstSeenFrom s (b :: rest) = firstSeenFrom (s ++ [b]) rest := by
        simp [firstSeenFrom, hmem]
      obtain ⟨t, ht⟩ := firstSeenFrom_append rest (s ++ [b])
      have hhead : idxOf b (firstSeenFrom (s ++ [b]) rest) = s.length := by
        rw [ht, List.append_assoc, idxOf_append_right ([b] ++ t) hmem]
        simp [idxOf]
      obtain ⟨ih1, ih2⟩ := ih hnd2 hsb2 hrest
      rw [hlen2] at ih1 ih2
      constructor
      · simp only [patternLoop, htg]
        simp only [if_true, hmod, htbl]
        rw [ih1]
        simp only [hfs, List.map_cons, hhead]
        congr 2
        omega
      · simp only [patternLoopNat, htg]
        simp only [if_true, htbl]
        rw [ih2]
        simp only [hfs, List.map_cons, hhead]

/-- If the input contains any byte outside the 128-slot table, both loops
end in the `exit(1)` branch, whatever state they are started in. -/
theorem patternLoop_bad {l : List Nat} : ∀ (t : Nat → Nat) (total : Nat),
    (∃ b ∈ l, 128 ≤ b) →
    patternLoop t total l = GenOutcome.processExit 1 ∧
    patternLoopNat t total l = GenOutcome.processExit 1 := by
  induction l with
  | nil =>
    intro t total h
    obtain ⟨b, hb, _⟩ := h
    cases hb
  | cons a rest ih =>
    intro t total h
    by_cases ha : a < 128
    · have hrest : ∃ b ∈ rest, 128 ≤ b := by
        obtain ⟨b, hb, hb2⟩ := h
        rcases List.mem_cons.mp hb with rfl | h3
        · omega
        · exact ⟨b, h3, hb2⟩
      have htg : tableGet t a = some (t a) := by simp [tableGet, ha]
      constructor
      · simp only [patternLoop, htg]
        by_cases hz : t a = 0
        · rw [if_pos hz, (ih _ _ hrest).1]
        · rw [if_neg hz, (ih _ _ hrest).1]
      · simp only [patternLoopNat, htg]
        by_cases hz : t a = 0
        · rw [if_pos hz, (ih _ _ hrest).2]
        · rw [if_neg hz, (ih _ _ hrest).2]
    · have htg : tableGet t a = none := by simp [tableGet, ha]
      constructor
      · simp only [patternLoop, htg]
      · simp only [patternLoopNat, htg]

/-- The table of the empty seen-stack is the zero-initialised table. -/
theorem tableOf_nil : tableOf [] = emptyTable := by
  funext x
  simp [tableOf, emptyTable]

/-- Characterization of the library function on valid input: it succeeds,
and the pattern value at each position is the 0-indexed rank of first
appearance of the byte at that position. -/
theorem generate_pattern_eq_spec {l : List Nat} (h : ∀ b ∈ l, b < 128) :
    generate_pattern l = GenOutcome.ok (l.map (fun b => idxOf b (firstSeen l))) := by
  have hm := (patternLoop_spec (l := l) (s := []) List.nodup_nil (by simp) h).1
  rw [tableOf_nil] at hm
  exact hm

/-- The same characterization for the unbounded-arithmetic loop. -/
theorem generate_pattern_ideal_eq_spec {l : List Nat} (h : ∀ b ∈ l, b < 128) :
    generate_pattern_ideal l = GenOutcome.ok (l.map (fun b => idxOf b (firstSeen l))) := by
  have hm := (patternLoop_spec (l := l) (s := []) List.nodup_nil (by simp) h).2
  rw [tableOf_nil] at hm
  exact hm

/-- Master invariant for the binary loop of `src/main.rs`: started from a
duplicate-free stack of byte values, it produces the first-appearance
ranks relative to that stack; the `u8` casts never change a value. -/
theorem patternStack_spec {l : List Nat} : ∀ {s : List Nat}, s.Nodup →
    (∀ x ∈ s, x < 256) → (∀ b ∈ l, b < 256) →
    patternStack s l = l.map (fun b => idxOf b (firstSeenFrom s l)) := by
  induction l with
  | nil =>
    intro s _ _ _
    rfl
  | cons b rest ih =>
    intro s hnd hsb hlb
    have hrest : ∀ x ∈ rest, x < 256 := fun x hx => hlb x (List.mem_cons_of_mem b hx)
    by_cases hmem : b ∈ s
    · have hpos := position_of_mem hmem
      have hlen : s.length ≤ 256 := nodup_length_le hnd hsb
      have hidx : idxOf b s < 256 := lt_of_lt_of_le (idxOf_lt_length hmem) hlen
      have hfs : firstSeenFrom s (b :: rest) = firstSeenFrom s rest := by
        simp [firstSeenFrom, hmem]
      obtain ⟨t, ht⟩ := firstSeenFrom_append rest s
      have hhead : idxOf b (firstSeenFrom s rest) = idxOf b s := by
        rw [ht, idxOf_append_left t hmem]
      simp only [patternStack, hpos]
      rw [ih hnd hsb hrest]
      simp only [hfs, List.map_cons, hhead]
      congr 1
      omega
    · have hpos := position_of_not_mem hmem
      have hnd2 : (s ++ [b]).Nodup := nodup_append_singleton hnd hmem
      have hsb2 : ∀ x ∈ s ++ [b], x < 256 := by
        intro x hx
        rcases List.mem_append.mp hx with h | h
        · exact hsb x h
        · have hxb : x = b := by simpa using h
          have hb : b < 256 := hlb b (List.mem_cons_self b rest)
          omega
      have hlen2 : (s ++ [b]).length ≤ 256 := nodup_length_le hnd2 hsb2
      have hfs : firstSeenFrom s (b :: rest) = firstSeenFrom (s ++ [b]) rest := by
        simp [firstSeenFrom, hmem]
      obtain ⟨t, ht⟩ := firstSeenFrom_append rest (s ++ [b])
      have hhead : idxOf b (firstSeenFrom (s ++ [b]) rest) = s.length := by
        rw [ht, List.append_assoc, idxOf_append_right ([b] ++ t) hmem]
        simp [idxOf]
      simp only [patternStack, hpos]
      rw [ih hnd2 hsb2 hrest]
      simp only [hfs, List.map_cons, hhead]
      congr 1
      have hss : s.length + 1 ≤ 256 := by simpa using hlen2
      omega

/-- Characterization of the binary variant on byte-valued input. -/
theorem generate_pattern_main_eq_spec {l : List Nat} (h : ∀ b ∈ l, b < 256) :
    generate_pattern_main l = l.map (fun b => idxOf b (firstSeen l)) :=
  patternStack_spec List.nodup_nil (by simp) h

/-- A pattern occurs in a batch at most as often as the batch is long. -/
theorem occCount_le_length (p : List Nat) : ∀ ps : List (List Nat),
    occCount p ps ≤ ps.length := by
  intro ps
  induction ps with
  | nil => exact Nat.le_refl 0
  | cons q rest ih =>
    simp only [occCount, List.length_cons]
    by_cases hq : q = p
    · rw [if_pos hq]
      omega
    · rw [if_neg hq]
      omega

/-- Occurrence counts are invariant under permutation of the batch. -/
theorem occCount_perm {ps qs : List (List Nat)} (h : ps.Perm qs) (p : List Nat) :
    occCount p ps = occCount p qs := by
  induction h with
  | nil => rfl
  | cons x _ ih => simp only [occCount, ih]
  | swap x y l => simp only [occCount]; ring
  | trans _ _ ih1 ih2 => exact ih1.trans ih2

/-- A pattern absent from a batch has occurrence count 0. -/
theorem occCount_of_not_mem {q : List Nat} {ps : List (List Nat)} (h : q ∉ ps) :
    occCount q ps = 0 := by
  induction ps with
  | nil => rfl
  | cons a s ih =>
    have haq : ¬ a = q := fun hc => h (hc ▸ List.mem_cons_self a s)
    have h2 : q ∉ s := fun hc => h (List.mem_cons_of_mem a hc)
    simp [occCount, haq, ih h2]

/-- Occurrence count of the replicated pattern in a constant batch. -/
theorem occCount_replicate (n : Nat) (a : List Nat) :
    occCount a (List.replicate n a) = n := by
  induction n with
  | zero => rfl
  | succ n ih =>
    rw [List.replicate_succ]
    show (if a = a then 1 else 0) + occCount a (List.replicate n a) = n + 1
    rw [if_pos rfl, ih]
    omega

/-- Sums of pointwise sums split. -/
theorem sum_map_split (f g : List Nat → Nat) : ∀ s : List (List Nat),
    (s.map (fun p => f p + g p)).sum = (s.map f).sum + (s.map g).sum := by
  intro s
  induction s with
  | nil => rfl
  | cons a s ih =>
    simp only [List.map_cons, List.sum_cons, ih]
    omega

/-- The sum of an equality indicator over a list not containing the tested
value is 0. -/
theorem indicator_sum_of_not_mem {q : List Nat} : ∀ {s : List (List Nat)}, q ∉ s →
    (s.map (fun p => if q = p then 1 else 0)).sum = 0 := by
  intro s
  induction s with
  | nil =>
    intro _
    rfl
  | cons a s ih =>
    intro h
    have haq : ¬ q = a := fun hc => h (hc ▸ List.mem_cons_self a s)
    have h2 : q ∉ s := fun hc => h (List.mem_cons_of_mem a hc)
    simp only [List.map_cons, List.sum_cons, if_neg haq, ih h2]

/-- The sum of an equality indicator over a duplicate-free list containing
the tested value is 1. -/
theorem indicator_sum_of_nodup {q : List Nat} : ∀ {s : List (List Nat)}, s.Nodup →
    q ∈ s → (s.map (fun p => if q = p then 1 else 0)).sum = 1 := by
  intro s
  induction s with
  | nil =>
    intro _ h
    cases h
  | cons a s ih =>
    intro hnd hmem
    by_cases haq : q = a
    · have hq : q ∉ s := haq ▸ (List.nodup_cons.mp hnd).1
      simp only [List.map_cons, List.sum_cons, if_pos haq,
        indicator_sum_of_not_mem hq]
    · have h2 : q ∈ s := by
        rcases List.mem_cons.mp hmem with h | h
        · exact absurd h haq
        · exact h
      simp only [List.map_cons, List.sum_cons, if_neg haq,
        ih (List.nodup_cons.mp hnd).2 h2]

/-- Summing the occurrence counts of the distinct patterns of a batch
recovers the batch length. -/
theorem sum_dedup_occCount : ∀ ps : List (List Nat),
    (ps.dedup.map (fun p => occCount p ps)).sum = ps.length := by
  intro ps
  induction ps with
  | nil => rfl
  | cons q rest ih =>
    have hocc : (fun p => occCount p (q :: rest))
        = (fun p => (if q = p then 1 else 0) + occCount p rest) := rfl
    by_cases hq : q ∈ rest
    · rw [List.dedup_cons_of_mem hq, hocc, sum_map_split, ih,
        indicator_sum_of_nodup (List.nodup_dedup rest) (List.mem_dedup.mpr hq)]
      simp only [List.length_cons]
      omega
    · rw [List.dedup_cons_of_not_mem hq]
      simp only [List.map_cons, List.sum_cons, hocc]
      rw [sum_map_split, ih,
        indicator_sum_of_not_mem (fun hc => hq (List.mem_dedup.mp hc)),
        if_true, occCount_of_not_mem hq]
      simp only [List.length_cons]
      omega

/-- Building a frequency entry with wrapping `u32` increments yields the
occurrence count modulo `2 ^ 32`. -/
theorem tally_aux (p : List Nat) : ∀ (ps : List (List Nat)) (c : Nat),
    ps.foldl (fun c q => if q = p then (c + 1) % 4294967296 else c) (c % 4294967296)
      = (c + occCount p ps) % 4294967296 := by
  intro ps
  induction ps with
  | nil =>
    intro c
    simp [occCount]
  | cons q rest ih =>
    intro c
    by_cases hq : q = p
    · simp only [List.foldl_cons, occCount, if_pos hq, Nat.mod_add_mod]
      rw [ih (c + 1)]
      congr 1
      omega
    · simp only [List.foldl_cons, occCount, if_neg hq]
      rw [ih c]
      congr 1
      omega

/-- The per-key value of the frequency table is the occurrence count
modulo `2 ^ 32`. -/
theorem tally_eq (ps : List (List Nat)) (p : List Nat) :
    tally ps p = occCount p ps % 4294967296 := by
  have h := tally_aux p ps 0
  simpa [tally] using h

/-- Summing with wrapping `u32` additions yields the sum modulo `2 ^ 32`. -/
theorem foldadd_aux : ∀ (vs : List Nat) (c : Nat),
    vs.foldl (fun acc v => (acc + v) % 4294967296) (c % 4294967296)
      = (c + vs.sum) % 4294967296 := by
  intro vs
  induction vs with
  | nil =>
    intro c
    simp
  | cons v rest ih =>
    intro c
    simp only [List.foldl_cons, List.sum_cons]
    have h1 : (c % 4294967296 + v) % 4294967296 = (c + v) % 4294967296 := by omega
    rw [h1, ih (c + v)]
    congr 1
    omega

/-- Closed form of `count_frequency`: the sum, modulo `2 ^ 32`, of the
wrapped occurrence counts exceeding 1, over the distinct patterns. -/
theorem count_frequency_eq (ps : List (List Nat)) :
    count_frequency ps
      = ((ps.dedup.map (fun p => occCount p ps % 4294967296)).filter
          (fun v => decide (1 < v))).sum % 4294967296 := by
  have hmap : ps.dedup.map (tally ps)
      = ps.dedup.map (fun p => occCount p ps % 4294967296) :=
    List.map_congr_left (fun p _ => tally_eq ps p)
  have h0 : (0 : Nat) = 0 % 4294967296 := rfl
  rw [count_frequency, hmap, h0, foldadd_aux]
  simp

/-- A filtered sum of naturals is at most the unfiltered sum. -/
theorem filter_sum_le (p : Nat → Bool) (l : List Nat) : (l.filter p).sum ≤ l.sum := by
  induction l with
  | nil => simp
  | cons a l ih =>
    rw [List.filter_cons]
    by_cases hp : p a = true
    · rw [if_pos hp]
      simp only [List.sum_cons]
      omega
    · rw [if_neg hp]
      simp only [List.sum_cons]
      omega

/-- A symbol renaming that is injective on the line commutes with the
first-seen list construction. -/
theorem firstSeenFrom_map {f : Nat → Nat} {L : List Nat}
    (hinj : ∀ x ∈ L, ∀ y ∈ L, f x = f y → x = y) :
    ∀ {l s : List Nat}, (∀ x ∈ l, x ∈ L) → (∀ x ∈ s, x ∈ L) →
    firstSeenFrom (s.map f) (l.map f) = (firstSeenFrom s l).map f := by
  intro l
  induction l with
  | nil =>
    intro s _ _
    rfl
  | cons b rest ih =>
    intro s hl hs
    have hbL : b ∈ L := hl b (List.mem_cons_self b rest)
    have hrest : ∀ x ∈ rest, x ∈ L := fun x hx => hl x (List.mem_cons_of_mem b hx)
    by_cases hmem : b ∈ s
    · have hfb : f b ∈ s.map f := List.mem_map_of_mem f hmem
      simp only [List.map_cons, firstSeenFrom, if_pos hfb, if_pos hmem]
      exact ih hrest hs
    · have hfb : f b ∉ s.map f := by
        intro hc
        obtain ⟨x, hx, hfx⟩ := List.mem_map.mp hc
        exact hmem ((hinj x (hs x hx) b hbL hfx) ▸ hx)
      have hs2 : ∀ x ∈ s ++ [b], x ∈ L := by
        intro x hx
        rcases List.mem_append.mp hx with h | h
        · exact hs x h
        · have hxb : x = b := by simpa using h
          exact hxb ▸ hbL
      have hmr : (s ++ [b]).map f = s.map f ++ [f b] := by simp
      simp only [List.map_cons, firstSeenFrom, if_neg hfb, if_neg hmem]
      rw [← hmr]
      exact ih hrest hs2

/-- A symbol renaming that is injective on the line preserves
first-occurrence indices. -/
theorem idxOf_map {f : Nat → Nat} {L : List Nat}
    (hinj : ∀ x ∈ L, ∀ y ∈ L, f x = f y → x = y)
    {b : Nat} (hb : b ∈ L) :
    ∀ {s : List Nat}, (∀ x ∈ s, x ∈ L) → idxOf (f b) (s.map f) = idxOf b s := by
  intro s
  induction s with
  | nil =>
    intro _
    rfl
  | cons a s ih =>
    intro hs
    have haL : a ∈ L := hs a (List.mem_cons_self a s)
    have hsL : ∀ x ∈ s, x ∈ L := fun x hx => hs x (List.mem_cons_of_mem a hx)
    by_cases hab : a = b
    · simp [idxOf, hab]
    · have hfab : ¬ f a = f b := fun hc => hab (hinj a haL b hb hc)
      simp [idxOf, hab, hfab, ih hsL]

/-- The distinct patterns of a nonempty constant batch form the singleton
batch. -/
theorem dedup_replicate_pos {n : Nat} (a : List Nat) (h : 0 < n) :
    (List.replicate n a).dedup = [a] := by
  induction n with
  | zero => omega
  | succ n ih =>
    rcases Nat.eq_zero_or_pos n with h0 | hpos
    · subst h0
      show ([a] : List (List Nat)).dedup = [a]
      rw [List.dedup_cons_of_not_mem (List.not_mem_nil a), List.dedup_nil]
    · rw [List.replicate_succ,
        List.dedup_cons_of_mem (List.mem_replicate.mpr ⟨by omega, rfl⟩), ih hpos]

/-- C1 (amended): on any input line containing a symbol outside the
supported range 0..=127, the library `generate_pattern` detects the error
locally and terminates the process with exit code 1 — a process-level
abrupt termination inside the library — and returns neither a silent
default value nor a truncated or incorrect pattern.  It does not return a
typed failure to the caller: the source has no error type. -/
theorem exit_on_invalid (l : List Nat) (h : ∃ b ∈ l, 128 ≤ b) :
    generate_pattern l = GenOutcome.processExit 1 :=
  (patternLoop_bad emptyTable 0 h).1

/-- Witness for the amended C1 theorem at the concrete input `[200]`. -/
theorem exit_on_invalid_w : generate_pattern [200] = GenOutcome.processExit 1 :=
  exit_on_invalid [200] ⟨200, by decide⟩

/-- C1 counterexample: the claim says an out-of-range symbol makes
`generate_pattern` propagate a typed `AlphabetRangeError` failure to the
caller, explicitly excluding a process-level abrupt termination hidden in
library code.  On the concrete input `[76, 65, 200]` the code instead hits
the `println!` plus `exit(1)` branch, embedded as the
`GenOutcome.processExit 1` outcome — the outcome type has no error
constructor at all, so no typed failure is ever produced. -/
theorem exit_on_invalid_ce :
    generate_pattern [76, 65, 200] = GenOutcome.processExit 1 := by
  decide

/-- C3: on valid input, the pattern value at each position is the
0-indexed rank of first appearance of the byte at that position (a single
rank per distinct character), and the rank of the k-th new symbol
encountered while scanning (the k-th entry of `firstSeen`) is exactly k,
so the ranks assigned at new-symbol events are 0, 1, 2, …. -/
theorem rank_characterization (l : List Nat) (h : ∀ b ∈ l, b < 128) :
    generate_pattern l = GenOutcome.ok (l.map (fun b => idxOf b (firstSeen l))) ∧
    ∀ k (hk : k < (firstSeen l).length),
      idxOf ((firstSeen l).get ⟨k, hk⟩) (firstSeen l) = k :=
  ⟨generate_pattern_eq_spec h,
   idxOf_get (firstSeenFrom_nodup List.nodup_nil)⟩

/-- Witness for C3 at the concrete input `"HHRGOE"`. -/
theorem rank_characterization_w :
    generate_pattern [72, 72, 82, 71, 79, 69]
      = GenOutcome.ok ([72, 72, 82, 71, 79, 69].map
          (fun b => idxOf b (firstSeen [72, 72, 82, 71, 79, 69]))) :=
  (rank_characterization [72, 72, 82, 71, 79, 69] (by decide)).1

/-- C4: on valid input the pattern has the same length as the input, and
the empty input yields the empty pattern, not an error. -/
theorem length_preservation :
    (∀ (l p : List Nat), (∀ b ∈ l, b < 128) →
        generate_pattern l = GenOutcome.ok p → p.length = l.length) ∧
    generate_pattern [] = GenOutcome.ok [] := by
  constructor
  · intro l p hv hok
    rw [generate_pattern_eq_spec hv] at hok
    injection hok with hp
    rw [← hp, List.length_map]
  · rfl

/-- Witness for C4 at the concrete input `"ABAB"`. -/
theorem length_preservation_w :
    ([0, 1, 0, 1] : List Nat).length = ([65, 66, 65, 66] : List Nat).length :=
  length_preservation.1 [65, 66, 65, 66] [0, 1, 0, 1] (by decide) (by decide)

/-- C5: renaming the symbols of a valid line by any map that is injective
on the line (and keeps it valid) leaves the generated pattern unchanged:
patterns depend only on the first-occurrence structure. -/
theorem renaming_invariance (l : List Nat) (f : Nat → Nat)
    (hl : ∀ b ∈ l, b < 128) (hf : ∀ b ∈ l, f b < 128)
    (hinj : ∀ x ∈ l, ∀ y ∈ l, f x = f y → x = y) :
    generate_pattern (l.map f) = generate_pattern l := by
  have hl2 : ∀ c ∈ l.map f, c < 128 := by
    intro c hc
    obtain ⟨x, hx, rfl⟩ := List.mem_map.mp hc
    exact hf x hx
  rw [generate_pattern_eq_spec hl2, generate_pattern_eq_spec hl]
  have hfs : firstSeen (l.map f) = (firstSeen l).map f := by
    have h := firstSeenFrom_map (L := l) hinj (l := l) (s := [])
      (fun x hx => hx) (by simp)
    simpa [firstSeen] using h
  rw [hfs, List.map_map]
  congr 1
  apply List.map_congr_left
  intro b hb
  simp only [Function.comp_apply]
  exact idxOf_map hinj hb (fun x hx => mem_of_mem_firstSeen hx)

/-- Witness for C5: `"ABAB"` renamed by the shift-by-two bijection is
`"CDCD"`, and the patterns coincide. -/
theorem renaming_invariance_w :
    generate_pattern [67, 68, 67, 68] = generate_pattern [65, 66, 65, 66] :=
  renaming_invariance [65, 66, 65, 66] (fun b => b + 2) (by decide) (by decide)
    (by decide)

/-- C6: `count_frequency` is invariant under any permutation of the input
batch. -/
theorem order_invariance (ps qs : List (List Nat)) (h : ps.Perm qs) :
    count_frequency ps = count_frequency qs := by
  rw [count_frequency_eq, count_frequency_eq]
  have hfun : (fun p => occCount p ps % 4294967296)
      = (fun p => occCount p qs % 4294967296) := by
    funext p
    rw [occCount_perm h p]
  rw [hfun]
  congr 1
  exact List.Perm.sum_eq (List.Perm.filter _ (List.Perm.map _ h.dedup))

/-- Witness for C6 on a concrete three-element batch and a transposition
of it. -/
theorem order_invariance_w :
    count_frequency [[0], [1], [0]] = count_frequency [[0], [0], [1]] :=
  order_invariance [[0], [1], [0]] [[0], [0], [1]] (by decide)

/-- C7: the `u8` rank counter of the library `generate_pattern` never
silently wraps: on every input the wrapping loop agrees with the loop in
unbounded arithmetic, and on every accepted line the number of distinct
symbols is at most 128, which fits the 8-bit width (the 128-slot range
check makes a line with more distinct symbols than the width can represent
impossible — such a line is rejected by the table bounds check). -/
theorem wrapping_agrees (l : List Nat) :
    generate_pattern l = generate_pattern_ideal l ∧
    ((∀ b ∈ l, b < 128) → (firstSeen l).length ≤ 128) := by
  constructor
  · by_cases h : ∀ b ∈ l, b < 128
    · rw [generate_pattern_eq_spec h, generate_pattern_ideal_eq_spec h]
    · push_neg at h
      obtain ⟨b, hb, hb2⟩ := h
      have hbad := patternLoop_bad (l := l) emptyTable 0 ⟨b, hb, by omega⟩
      rw [generate_pattern, generate_pattern_ideal, hbad.1, hbad.2]
  · intro h
    exact firstSeen_length_le h

/-- Witness for C7 at the concrete input `"AB"`. -/
theorem wrapping_agrees_w :
    generate_pattern [65, 66] = generate_pattern_ideal [65, 66] ∧
    (firstSeen [65, 66]).length ≤ 128 :=
  ⟨(wrapping_agrees [65, 66]).1, (wrapping_agrees [65, 66]).2 (by decide)⟩

/-- C8: on the byte strings of `"LALALA"`, `"XOXOXO"`, `"GCGCGC"`,
`"HHHCCC"`, `"BBBMMM"`, `"EGONUH"`, `"HHRGOE"`, `generate_pattern`
produces the listed patterns and `count_frequency` of that batch is
exactly 5 (three copies of `0101 0 1` contribute 3 and two copies of
`000111` contribute 2). -/
theorem canonical_scenario :
    [[76, 65, 76, 65, 76, 65], [88, 79, 88, 79, 88, 79],
        [71, 67, 71, 67, 71, 67], [72, 72, 72, 67, 67, 67],
        [66, 66, 66, 77, 77, 77], [69, 71, 79, 78, 85, 72],
        [72, 72, 82, 71, 79, 69]].map generate_pattern
      = [[0, 1, 0, 1, 0, 1], [0, 1, 0, 1, 0, 1], [0, 1, 0, 1, 0, 1],
          [0, 0, 0, 1, 1, 1], [0, 0, 0, 1, 1, 1], [0, 1, 2, 3, 4, 5],
          [0, 0, 1, 2, 3, 4]].map GenOutcome.ok
    ∧ count_frequency
        [[0, 1, 0, 1, 0, 1], [0, 1, 0, 1, 0, 1], [0, 1, 0, 1, 0, 1],
          [0, 0, 0, 1, 1, 1], [0, 0, 0, 1, 1, 1], [0, 1, 2, 3, 4, 5],
          [0, 0, 1, 2, 3, 4]] = 5 := by
  constructor
  · decide
  · decide

/-- C9: the library `generate_pattern` succeeds exactly when every byte of
the input is in 0..=127; every such byte — lowercase, digit, punctuation or
control, not only uppercase — is accepted and ranked like any other
symbol. -/
theorem ascii_acceptance (l : List Nat) :
    (∃ p, generate_pattern l = GenOutcome.ok p) ↔ (∀ b ∈ l, b < 128) := by
  constructor
  · intro hp
    obtain ⟨p, hp⟩ := hp
    by_contra hc
    push_neg at hc
    obtain ⟨b, hb, hb2⟩ := hc
    have hbad := (patternLoop_bad (l := l) emptyTable 0 ⟨b, hb, by omega⟩).1
    rw [generate_pattern, hbad] at hp
    simp at hp
  · intro h
    exact ⟨_, generate_pattern_eq_spec h⟩

/-- Witness for C9 at a concrete input made of a lowercase letter, a
digit, a punctuation byte and a control byte. -/
theorem ascii_acceptance_w :
    ∃ p, generate_pattern [97, 48, 33, 9] = GenOutcome.ok p :=
  (ascii_acceptance [97, 48, 33, 9]).mpr (by decide)

/-- C10: on every input whose bytes are all in 0..=127, the 128-slot
lookup-table variant of `src/lib.rs` and the linear-search stack variant
of `src/main.rs` return identical patterns. -/
theorem lib_main_agree (l : List Nat) (h : ∀ b ∈ l, b < 128) :
    generate_pattern l = GenOutcome.ok (generate_pattern_main l) := by
  rw [generate_pattern_eq_spec h,
    generate_pattern_main_eq_spec (fun b hb => by have := h b hb; omega)]

/-- Witness for C10 at the concrete input `"HHRGOE"`. -/
theorem lib_main_agree_w :
    generate_pattern [72, 72, 82, 71, 79, 69]
      = GenOutcome.ok (generate_pattern_main [72, 72, 82, 71, 79, 69]) :=
  lib_main_agree [72, 72, 82, 71, 79, 69] (by decide)

/-- C2 (amended): for every batch of fewer than 2^32 patterns,
`count_frequency` returns exactly the sum of occurrence counts over every
distinct pattern whose occurrence count is at least 2 (`recurringTotal`);
it is a total function (it never fails), and on the empty batch it
returns 0. -/
theorem frequency_contract :
    (∀ ps : List (List Nat), ps.length < 4294967296 →
        count_frequency ps = recurringTotal ps) ∧
    count_frequency [] = 0 := by
  constructor
  · intro ps hlen
    rw [count_frequency_eq]
    have hmap : ps.dedup.map (fun p => occCount p ps % 4294967296)
        = ps.dedup.map (fun p => occCount p ps) := by
      apply List.map_congr_left
      intro p _
      have hc := occCount_le_length p ps
      omega
    rw [hmap]
    have hfil : (ps.dedup.map (fun p => occCount p ps)).filter
          (fun v => decide (1 < v))
        = (ps.dedup.map (fun p => occCount p ps)).filter
          (fun v => decide (2 ≤ v)) := by
      apply List.filter_congr
      intro v _
      rw [decide_eq_decide]
      omega
    rw [hfil]
    have hsum : ((ps.dedup.map (fun p => occCount p ps)).filter
          (fun v => decide (2 ≤ v))).sum ≤ ps.length := by
      calc ((ps.dedup.map (fun p => occCount p ps)).filter
              (fun v => decide (2 ≤ v))).sum
          ≤ (ps.dedup.map (fun p => occCount p ps)).sum := filter_sum_le _ _
        _ = ps.length := sum_dedup_occCount ps
    rw [recurringTotal]
    omega
  · rfl

/-- Witness for the amended C2 theorem on a concrete three-pattern
batch. -/
theorem frequency_contract_w :
    count_frequency [[0], [0], [1]] = recurringTotal [[0], [0], [1]] :=
  frequency_contract.1 [[0], [0], [1]] (by norm_num)

/-- C2 counterexample: the claim quantifies over every finite batch, but
on the batch of 2^32 copies of the empty pattern the `u32` occurrence
counter `*entry += 1` wraps to 0, the entry is dropped by the `> 1`
filter, and `count_frequency` returns 0, while the claimed sum of
occurrence counts of patterns occurring at least twice is 2^32. -/
theorem frequency_overflow_ce :
    count_frequency (List.replicate 4294967296 ([] : List Nat)) = 0 ∧
    recurringTotal (List.replicate 4294967296 ([] : List Nat)) = 4294967296 := by
  have hd := dedup_replicate_pos (n := 4294967296) ([] : List Nat) (by norm_num)
  have hc := occCount_replicate 4294967296 ([] : List Nat)
  constructor
  · rw [count_frequency_eq, hd,
      show ([([] : List Nat)].map
          (fun p => occCount p (List.replicate 4294967296 ([] : List Nat)) % 4294967296))
        = [occCount ([] : List Nat) (List.replicate 4294967296 ([] : List Nat)) % 4294967296]
        from rfl,
      hc]
    decide
  · rw [recurringTotal, hd,
      show ([([] : List Nat)].map
          (fun p => occCount p (List.replicate 4294967296 ([] : List Nat))))
        = [occCount ([] : List Nat) (List.replicate 4294967296 ([] : List Nat))]
        from rfl,
      hc]
    decide
